import Mathlib

/-!
Shallow embedding of `pympc/control/controllers_gurobi.py`
(`HybridModelPredictiveController` and its helper functions) and proofs
about it.  Real scalars of the Python/numpy code are modelled as `ℚ`;
numpy column vectors (`b[k,0]`) are modelled as `List ℚ`; matrices as
`List (List ℚ)` (lists of rows).  The external LP solver
`pympc.optimization.programs.linear_program` and the Gurobi model object
are out of scope of the repository and are modelled abstractly: the LP
solver as a function parameter returning the optimal value (`sol['min']`),
the Gurobi program as explicit lists of variable declarations and
constraints, with Gurobi's documented defaults for `Model.addVars`
(`lb = 0`, `ub = +infinity`, continuous type `'C'`).
-/

namespace PyMPC

/-- A polyhedron `{w : A·w ≤ b}`; the source stores `b` as a column matrix
(entries `b[k,0]`), modelled here as the list of its entries. -/
structure Polyhedron where
  A : List (List ℚ)
  b : List ℚ
deriving Inhabited, DecidableEq

/-- One affine system `x+ = A x + B u + c` (fields `A`, `B`, `c` of
`pympc`'s `AffineSystem`). -/
structure AffineSystem where
  A : List (List ℚ)
  B : List (List ℚ)
  c : List ℚ
deriving Inhabited, DecidableEq

/-- The piecewise-affine system consumed by the controller: dimensions
`nx`, `nu`, number of modes `nm`, per-mode polyhedral domains and affine
dynamics. -/
structure PWASystem where
  nx : ℕ
  nu : ℕ
  nm : ℕ
  domains : List Polyhedron
  affine_systems : List AffineSystem
deriving Inhabited

/-- Dot product of two vectors (numpy `v.dot(w)`); truncates to the
shorter length, as all uses have matching lengths. -/
def dot (v w : List ℚ) : ℚ := (List.zipWith (· * ·) v w).sum

/-- Horizontal concatenation of two matrices (numpy `np.hstack`). -/
def hcat (M N : List (List ℚ)) : List (List ℚ) := List.zipWith (· ++ ·) M N

/-- An `m × n` zero matrix (numpy `np.zeros((m,n))`). -/
def zeros (m n : ℕ) : List (List ℚ) :=
  List.replicate m (List.replicate n 0)

/-- Row `r` of the `n × n` identity matrix. -/
def stdRow (n r : ℕ) : List ℚ :=
  (List.range n).map fun j => if r = j then 1 else 0

/-- The `n × n` identity matrix (numpy `np.eye(n)`). -/
def eye (n : ℕ) : List (List ℚ) := (List.range n).map (stdRow n)

/-- Entrywise negation of a vector. -/
def vecNeg (v : List ℚ) : List ℚ := v.map Neg.neg

/-- Entrywise negation of a matrix (numpy unary `-` on a 2-d array). -/
def negMat (M : List (List ℚ)) : List (List ℚ) := M.map vecNeg

/-- Entrywise sum of two vectors. -/
def vecAdd (v w : List ℚ) : List ℚ := List.zipWith (· + ·) v w

/-- Matrix–vector product `M·x` as the list of row dot products. -/
def matVec (M : List (List ℚ)) (x : List ℚ) : List ℚ :=
  M.map fun row => dot row x

/-- `get_graph_representation(S)` (lines 263–275): for each mode `i`,
the polyhedron in `(x,u,x+)`-space stacking the domain rows `[D.A | 0]`,
the forward-dynamics rows `[S.A | S.B | -I]` with rhs `-S.c`, and the
backward-dynamics rows `[-S.A | -S.B | I]` with rhs `S.c`. -/
def get_graph_representation (S : PWASystem) : List Polyhedron :=
  (List.range S.nm).map fun i =>
    let Di := S.domains.getD i default
    let Si := S.affine_systems.getD i default
    { A := hcat Di.A (zeros Di.A.length S.nx)
          ++ hcat (hcat Si.A Si.B) (negMat (eye S.nx))
          ++ hcat (hcat (negMat Si.A) (negMat Si.B)) (eye S.nx)
      b := Di.b ++ vecNeg Si.c ++ Si.c }

/-- The feasible set of a polyhedron: `w` satisfies every row
`A[k]·w ≤ b[k]`. -/
def feasible (P : Polyhedron) (w : List ℚ) : Prop :=
  ∀ k, k < P.A.length → dot (P.A.getD k []) w ≤ P.b.getD k 0

/-- Elementwise maximum of two vectors (numpy `np.maximum`). -/
def vecMax (v w : List ℚ) : List ℚ := List.zipWith max v w

/-- `np.maximum.reduce` over a list of equal-length vectors: elementwise
maximum folded over the list. -/
def maxReduce : List (List ℚ) → List ℚ
  | [] => []
  | v :: vs => vs.foldl vecMax v

/-- `get_big_m(P_list, tol)` (lines 277–293).  The external LP solver
`linear_program(f, A, b)` is out of scope of this repository and is
abstracted by the parameter `lp f A b`, the optimal value `sol['min']` of
`min f·w  s.t.  A w ≤ b`.  For each ordered pair `(i,j)` and row `k` of
`Pi`, `mijk = -lp(-Pi.A[k], Pj.A, Pj.b) - Pi.b[k]`, snapped to `0` when
`|mijk| < tol` (the source's default tolerance is `1e-6`); `mi[i]` is the
elementwise `np.maximum.reduce` over `j` of `m[i][j]`. -/
def get_big_m (lp : List ℚ → List (List ℚ) → List ℚ → ℚ)
    (P_list : List Polyhedron) (tol : ℚ) :
    List (List (List ℚ)) × List (List ℚ) :=
  let m := P_list.map fun Pi =>
    P_list.map fun Pj =>
      (List.range Pi.A.length).map fun k =>
        let f := vecNeg (Pi.A.getD k [])
        let mijk := - lp f Pj.A Pj.b - Pi.b.getD k 0
        if |mijk| < tol then 0 else mijk
  let mi := m.map fun mrow => maxReduce mrow
  (m, mi)

/-- A Gurobi variable declaration: name, lower bound (`none` = `-∞`),
upper bound (`none` = `+∞`), and type character (`'C'` continuous,
`'B'` binary). -/
structure VarDecl where
  vname : String
  lb : Option ℚ
  ub : Option ℚ
  vtype : Char
deriving Inhabited, DecidableEq

/-- `prog.addVars(n, ..., name=base)`: variables `base[0] … base[n-1]`
with the given bounds; Gurobi's documented defaults are `lb = 0`,
`ub = +∞` and continuous type `'C'`. -/
def addVarsNamed (base : String) (n : ℕ) (lb ub : Option ℚ) : List VarDecl :=
  (List.range n).map fun k => ⟨base ++ "[" ++ toString k ++ "]", lb, ub, 'C'⟩

/-- `prog.addVars(p, q, lb=-∞, name=base)` (the two-index form used for
the convex-hull auxiliaries `y`, `z`, `v`): names `base[i,k]`. -/
def addVars2Named (base : String) (p q : ℕ) : List VarDecl :=
  (List.range p).flatMap fun i =>
    (List.range q).map fun k =>
      ⟨base ++ "[" ++ toString i ++ "," ++ toString k ++ "]", none, none, 'C'⟩

/-- The variable declarations `build_mpmiqp` issues (lines 48–66), in
order: at `t = 0` the pinned-to-zero initial state `x0`; then per stage
`t` the free variables `x(t+1)`, `u t` (lower bound `-∞`), the indicator
`d t` added with `prog.addVars(nm, name='d%d'%t)` — i.e. with Gurobi's
defaults `lb = 0`, `ub = +∞`, continuous — and, for the convex-hull
method only, the auxiliaries `y t`, `z t`, `v t`. -/
def build_vars (nx nu nm N : ℕ) (method : String) : List VarDecl :=
  (List.range N).flatMap fun t =>
    (if t = 0 then addVarsNamed "x0" nx (some 0) (some 0) else []) ++
    addVarsNamed ("x" ++ toString (t+1)) nx none none ++
    addVarsNamed ("u" ++ toString t) nu none none ++
    addVarsNamed ("d" ++ toString t) nm (some 0) none ++
    (if method = "convex_hull" then
      addVars2Named ("y" ++ toString t) nm nx ++
      addVars2Named ("z" ++ toString t) nm nx ++
      addVars2Named ("v" ++ toString t) nm nu
    else [])

/-- The Gurobi name of indicator variable `d_t[i]`. -/
def dName (t i : ℕ) : String :=
  ("d" ++ toString t) ++ "[" ++ toString i ++ "]"

/-- Scalar–vector product `c * v` (numpy array times scalar). -/
def scaleVec (c : ℚ) (v : List ℚ) : List ℚ := v.map (c * ·)

/-- One dynamics constraint added at stage `t` by the big-M branch of
`build_mpmiqp`: `pred` is the inequality passed to `prog.addConstr`,
as a predicate of the stacked stage vector `xux = (x_t, u_t, x_{t+1})`
and the stage-`t` indicator vector `d_t`. -/
structure DynConstr where
  t : ℕ
  pred : List ℚ → List ℚ → Prop

/-- The dynamics constraints added by lines 68–78 of `build_mpmiqp`
for the two big-M methods (the convex-hull branch uses different
variables and is not needed by the claims; other method strings add no
dynamics constraint here and raise later).  Mirrors the source: a loop
over stages `t`, a guard `method in ['big_m','improved_big_m']`, a loop
over modes `i`, the two method-specific inner blocks, and a loop over
rows `k`.  `sum_mi` is the vector `sum(m[i][j] * d[j] for j != i)`,
evaluated at the valuation `d` of the stage indicators. -/
def bigM_dyn_constraints (method : String) (P : List Polyhedron)
    (m : List (List (List ℚ))) (mi : List (List ℚ)) (N nm : ℕ) :
    List DynConstr :=
  (List.range N).flatMap fun t =>
    if method = "big_m" ∨ method = "improved_big_m" then
      (List.range nm).flatMap fun i =>
        (if method = "big_m" then
          (List.range ((P.getD i default).A.length)).map fun k =>
            ⟨t, fun xux d =>
              dot ((P.getD i default).A.getD k []) xux ≤
                (P.getD i default).b.getD k 0 +
                  (mi.getD i []).getD k 0 * (1 - d.getD i 0)⟩
        else []) ++
        (if method = "improved_big_m" then
          (List.range ((P.getD i default).A.length)).map fun k =>
            ⟨t, fun xux d =>
              let sum_mi := (((List.range nm).filter (fun j => j ≠ i)).foldl
                (fun acc j =>
                  vecAdd acc (scaleVec (d.getD j 0) ((m.getD i []).getD j [])))
                (List.replicate ((P.getD i default).A.length) 0))
              dot ((P.getD i default).A.getD k []) xux ≤
                (P.getD i default).b.getD k 0 + sum_mi.getD k 0⟩
        else [])
    else []

/-- `read_gurobi_status` (lines 295–312): the literal status-code
dictionary; `none` models the `KeyError` a missing key raises. -/
def read_gurobi_status (status : ℕ) : Option String :=
  if status = 1 then some "loaded"
  else if status = 2 then some "optimal"
  else if status = 3 then some "infeasible"
  else if status = 4 then some "inf_or_unbd"
  else if status = 5 then some "unbounded"
  else if status = 6 then some "cutoff"
  else if status = 7 then some "iteration_limit"
  else if status = 8 then some "node_limit"
  else if status = 9 then some "time_limit"
  else if status = 10 then some "solution_limit"
  else if status = 11 then some "interrupted"
  else if status = 12 then some "numeric"
  else if status = 13 then some "suboptimal"
  else if status = 14 then some "in_progress"
  else if status = 15 then some "user_obj_limit"
  else none

/-- The fields of the `solve_relaxation` result that depend only on the
solver status (lines 170–179): the `cutoff` flag, the `feasible` flag
(`none` models Python's `None`), and whether the early `return` at line
178–179 is NOT taken, i.e. whether the solution fields (`x`, `u`,
`mode_sequence`, `integer_feasible`, `cost`, basis) get populated. -/
structure RelaxStatusResult where
  cutoff : Bool
  feasible : Option Bool
  has_solution_fields : Bool
deriving Inhabited, DecidableEq

/-- Lines 170–179 of `solve_relaxation`: `cutoff` is whether the status
reads `'cutoff'`; otherwise `feasible` is whether it reads `'optimal'`;
the solution fields are populated exactly when neither `cutoff` nor
`not feasible` causes the early return (Python's `not None = True`). -/
def solve_relaxation_status (status : ℕ) : RelaxStatusResult :=
  let c : Bool := read_gurobi_status status == some "cutoff"
  let f : Option Bool :=
    if c then none else some (read_gurobi_status status == some "optimal")
  { cutoff := c
    feasible := f
    has_solution_fields := !(c || !(f == some true)) }

/-- numpy's default absolute tolerance `atol = 1e-8`. -/
def atol : ℚ := 1 / 100000000

/-- numpy's default relative tolerance `rtol = 1e-5`. -/
def rtol : ℚ := 1 / 100000

/-- `np.isclose(a, b)` with numpy defaults: `|a - b| ≤ atol + rtol·|b|`. -/
def isclose (a b : ℚ) : Bool := |a - b| ≤ atol + rtol * |b|

/-- `np.allclose` on two equal-length 1-d arrays: pairwise `isclose`
(`false` on a length mismatch). -/
def allclose : List ℚ → List ℚ → Bool
  | [], [] => true
  | a :: va, b :: vb => isclose a b && allclose va vb
  | _, _ => false

/-- Python's `max(dt)` on a nonempty list (`0` on the empty list, where
Python raises). -/
def listMax : List ℚ → ℚ
  | [] => 0
  | x :: xs => xs.foldl max x

/-- Python's `dt.index(v)`: index of the first occurrence. -/
def listIndex (dt : List ℚ) (v : ℚ) : ℕ := dt.findIdx (fun x => x == v)

/-- Line 187: `[dt.index(max(dt)) for dt in d]`. -/
def mode_sequence_of (d : List (List ℚ)) : List ℕ :=
  d.map fun dt => listIndex dt (listMax dt)

/-- Line 188: `all(np.allclose(sorted(dt), [0]*(len(dt)-1)+[1]) for dt
in d)`; Python's `sorted` is modelled by `List.insertionSort (· ≤ ·)`
(any correct ascending sort). -/
def integer_feasible (d : List (List ℚ)) : Bool :=
  d.all fun dt =>
    allclose (List.insertionSort (· ≤ ·) dt)
      (List.replicate (dt.length - 1) 0 ++ [1])

/-- The mutable controller state `update_mode_sequence` operates on:
the lower bounds of the indicator variables `d_t[i]` (the only bounds it
touches) and the stored `self.partial_mode_sequence`. -/
structure CtrlState where
  lbD : ℕ → ℕ → ℚ
  seq : List ℕ

/-- Point update of the indicator-lower-bound table. -/
def setLB (f : ℕ → ℕ → ℚ) (t i : ℕ) (v : ℚ) : ℕ → ℕ → ℚ :=
  fun u j => if u = t ∧ j = i then v else f u j

/-- `update_mode_sequence` (lines 124–144): per time step `t < N`,
write-and-erase when both the new and the stored sequence cover `t` and
differ there, erase-only when only the stored one covers `t`, write-only
when only the new one covers `t`; finally store the new sequence. -/
def update_mode_sequence (N : ℕ) (st : CtrlState) (new : List ℕ) :
    CtrlState :=
  { lbD := (List.range N).foldl (fun f t =>
      if t < new.length ∧ t < st.seq.length then
        (if new.getD t 0 ≠ st.seq.getD t 0 then
          setLB (setLB f t (st.seq.getD t 0) 0) t (new.getD t 0) 1
        else f)
      else if t ≥ new.length ∧ t < st.seq.length then
        setLB f t (st.seq.getD t 0) 0
      else if t < new.length ∧ t ≥ st.seq.length then
        setLB f t (new.getD t 0) 1
      else f) st.lbD
    seq := new }

/-- `np.argsort(score)[::-1].tolist()` (line 208): indices of `score`
sorted ascending by value (argsort), then reversed. -/
def argsortDesc (score : List ℚ) : List ℕ :=
  (List.insertionSort (fun a b => score.getD a 0 ≤ score.getD b 0)
    (List.range score.length)).reverse

/-- `mode_heuristic` (lines 204–214): the score is the relaxed indicator
row at the first free stage `t = len(self.partial_mode_sequence)`; the
children ordering sorts modes by descending score; when the stored
sequence is nonempty, its last entry is popped from the ordering and
re-inserted at the front (`x :: erase x` equals the source's
`insert(0, pop(index(x)))` since `index` finds the first occurrence). -/
def mode_heuristic (seq : List ℕ) (d : List (List ℚ)) :
    List ℕ × List ℚ :=
  let children_score := d.getD seq.length []
  let co := argsortDesc children_score
  let co :=
    if 0 < seq.length then
      (seq.getD (seq.length - 1) 0) :: co.erase (seq.getD (seq.length - 1) 0)
    else co
  (co, children_score)

/-! ## Helper lemmas -/

theorem read_status_large (s : ℕ) (h : 16 ≤ s) :
    read_gurobi_status s = none := by
  unfold read_gurobi_status
  rw [if_neg (by omega : ¬ s = 1), if_neg (by omega : ¬ s = 2),
    if_neg (by omega : ¬ s = 3), if_neg (by omega : ¬ s = 4),
    if_neg (by omega : ¬ s = 5), if_neg (by omega : ¬ s = 6),
    if_neg (by omega : ¬ s = 7), if_neg (by omega : ¬ s = 8),
    if_neg (by omega : ¬ s = 9), if_neg (by omega : ¬ s = 10),
    if_neg (by omega : ¬ s = 11), if_neg (by omega : ¬ s = 12),
    if_neg (by omega : ¬ s = 13), if_neg (by omega : ¬ s = 14),
    if_neg (by omega : ¬ s = 15)]

theorem read_status_cutoff_iff (s : ℕ) :
    read_gurobi_status s = some "cutoff" ↔ s = 6 := by
  by_cases h : s < 16
  · interval_cases s <;> decide
  · rw [read_status_large s (by omega)]
    constructor
    · intro hh; exact absurd hh (by simp)
    · intro hh; omega

theorem read_status_optimal_iff (s : ℕ) :
    read_gurobi_status s = some "optimal" ↔ s = 2 := by
  by_cases h : s < 16
  · interval_cases s <;> decide
  · rw [read_status_large s (by omega)]
    constructor
    · intro hh; exact absurd hh (by simp)
    · intro hh; omega

theorem foldl_id {α : Type _} {β : Type _} (step : α → β → α)
    (h : ∀ a b, step a b = a) : ∀ (l : List β) (a : α), l.foldl step a = a := by
  intro l
  induction l with
  | nil => intro a; rfl
  | cons x xs ih => intro a; rw [List.foldl_cons, h]; exact ih a

theorem getD_map_list {α β : Type _} (f : α → β) (l : List α) (i : ℕ)
    (d : β) (da : α) (hi : i < l.length) :
    (l.map f).getD i d = f (l.getD i da) := by
  rw [List.getD_eq_getElem _ _ (by simpa using hi), List.getElem_map,
    List.getD_eq_getElem _ _ hi]

theorem length_vecMax (v w : List ℚ) :
    (vecMax v w).length = min v.length w.length := by
  simp [vecMax]

theorem getD_vecMax (v w : List ℚ) (k : ℕ) (hv : k < v.length)
    (hw : k < w.length) :
    (vecMax v w).getD k 0 = max (v.getD k 0) (w.getD k 0) := by
  rw [List.getD_eq_getElem _ _ (by rw [length_vecMax]; omega),
    List.getD_eq_getElem _ _ hv, List.getD_eq_getElem _ _ hw]
  simp [vecMax]

theorem foldl_vecMax_getD (L k : ℕ) (hk : k < L) :
    ∀ (vs : List (List ℚ)) (acc : List ℚ), acc.length = L →
      (∀ v ∈ vs, v.length = L) →
      (vs.foldl vecMax acc).getD k 0 =
        (vs.map (fun v => v.getD k 0)).foldl max (acc.getD k 0) := by
  intro vs
  induction vs with
  | nil => intro acc _ _; rfl
  | cons v vs ih =>
    intro acc hacc hlen
    have hv : v.length = L := hlen v (by simp)
    rw [List.foldl_cons, List.map_cons, List.foldl_cons,
      ih (vecMax acc v) (by rw [length_vecMax, hacc, hv]; simp)
        (fun w hw => hlen w (by simp [hw])),
      getD_vecMax _ _ _ (by omega) (by omega)]

theorem le_foldl_max (l : List ℚ) (a : ℚ) : a ≤ l.foldl max a := by
  induction l generalizing a with
  | nil => exact le_refl a
  | cons x xs ih =>
    exact le_trans (le_max_left a x) (ih (max a x))

theorem mem_le_foldl_max (l : List ℚ) (a x : ℚ) (hx : x ∈ l) :
    x ≤ l.foldl max a := by
  induction l generalizing a with
  | nil => cases hx
  | cons y ys ih =>
    rcases List.mem_cons.mp hx with h | h
    · subst h
      exact le_trans (le_max_right a x) (le_foldl_max ys (max a x))
    · exact ih (max a y) h

theorem foldl_max_mem (l : List ℚ) (a : ℚ) :
    l.foldl max a = a ∨ l.foldl max a ∈ l := by
  induction l generalizing a with
  | nil => exact Or.inl rfl
  | cons x xs ih =>
    rw [List.foldl_cons]
    rcases ih (max a x) with h | h
    · rcases max_choice a x with hm | hm
      · exact Or.inl (by rw [h, hm])
      · exact Or.inr (by rw [h, hm]; exact List.mem_cons_self _ _)
    · exact Or.inr (List.mem_cons_of_mem x h)

theorem maxReduce_getD_spec (vs : List (List ℚ)) (L k : ℕ) (hk : k < L)
    (hne : vs ≠ []) (hlen : ∀ v ∈ vs, v.length = L) :
    (∀ v ∈ vs, v.getD k 0 ≤ (maxReduce vs).getD k 0) ∧
    (∃ v ∈ vs, (maxReduce vs).getD k 0 = v.getD k 0) := by
  match vs, hne with
  | v0 :: rest, _ =>
    have h0 : (maxReduce (v0 :: rest)).getD k 0 =
        (rest.map (fun v => v.getD k 0)).foldl max (v0.getD k 0) := by
      show (rest.foldl vecMax v0).getD k 0 = _
      exact foldl_vecMax_getD L k hk rest v0 (hlen v0 (by simp))
        (fun w hw => hlen w (by simp [hw]))
    constructor
    · intro v hv
      rcases List.mem_cons.mp hv with h | h
      · subst h; rw [h0]; exact le_foldl_max _ _
      · rw [h0]
        exact mem_le_foldl_max _ _ _ (List.mem_map_of_mem _ h)
    · rw [h0]
      rcases foldl_max_mem (rest.map fun v => v.getD k 0) (v0.getD k 0)
        with h | h
      · exact ⟨v0, by simp, h⟩
      · rcases List.mem_map.mp h with ⟨v, hv, he⟩
        exact ⟨v, List.mem_cons_of_mem _ hv, he.symm⟩

theorem getD_range {n k : ℕ} (h : k < n) : (List.range n).getD k 0 = k := by
  rw [List.getD_eq_getElem _ _ (by simpa using h), List.getElem_range]

theorem getD_mem_of_lt {α : Type _} (l : List α) (d : α) (j : ℕ)
    (h : j < l.length) : l.getD j d ∈ l := by
  rw [List.getD_eq_getElem _ _ h]
  exact List.getElem_mem _

theorem getD_eq_of_getElem {α : Type _} {l : List α} {j : ℕ} {v : α}
    (d : α) (h : j < l.length) (he : l[j] = v) : l.getD j d = v := by
  rw [List.getD_eq_getElem _ _ h, he]

theorem argsortDesc_perm (score : List ℚ) :
    List.Perm (argsortDesc score) (List.range score.length) :=
  (List.reverse_perm _).trans (List.perm_insertionSort _ _)

theorem argsortDesc_sorted (score : List ℚ) :
    List.Sorted (fun a b => score.getD b 0 ≤ score.getD a 0)
      (argsortDesc score) := by
  unfold argsortDesc
  rw [List.Sorted, List.pairwise_reverse]
  haveI h1 : IsTotal ℕ
      (fun a b => score.getD a 0 ≤ score.getD b 0) :=
    ⟨fun a b => le_total _ _⟩
  haveI h2 : IsTrans ℕ
      (fun a b => score.getD a 0 ≤ score.getD b 0) :=
    ⟨fun a b c hab hbc => le_trans hab hbc⟩
  exact List.sorted_insertionSort _ _

theorem length_vecAdd (v w : List ℚ) :
    (vecAdd v w).length = min v.length w.length := by simp [vecAdd]

theorem getD_vecAdd (v w : List ℚ) (k : ℕ) (hv : k < v.length)
    (hw : k < w.length) :
    (vecAdd v w).getD k 0 = v.getD k 0 + w.getD k 0 := by
  rw [List.getD_eq_getElem _ _ (by rw [length_vecAdd]; omega),
    List.getD_eq_getElem _ _ hv, List.getD_eq_getElem _ _ hw]
  simp [vecAdd]

theorem getD_scaleVec (c : ℚ) (v : List ℚ) (k : ℕ) (hk : k < v.length) :
    (scaleVec c v).getD k 0 = c * v.getD k 0 := by
  rw [List.getD_eq_getElem _ _ (by simpa [scaleVec] using hk),
    List.getD_eq_getElem _ _ hk]
  simp [scaleVec]

theorem foldl_vecAdd_scale_getD (g : ℕ → ℚ) (w : ℕ → List ℚ) (L k : ℕ)
    (hk : k < L) :
    ∀ (js : List ℕ) (acc : List ℚ), acc.length = L →
      (∀ j ∈ js, (w j).length = L) →
      (js.foldl (fun acc2 j => vecAdd acc2 (scaleVec (g j) (w j)))
          acc).getD k 0 =
        acc.getD k 0 + (js.map (fun j => g j * (w j).getD k 0)).sum := by
  intro js
  induction js with
  | nil => intro acc _ _; simp
  | cons j js ih =>
    intro acc hacc hlen
    have hwj : (w j).length = L := hlen j (by simp)
    rw [List.foldl_cons,
      ih (vecAdd acc (scaleVec (g j) (w j)))
        (by rw [length_vecAdd, hacc]; simp [scaleVec, hwj])
        (fun x hx => hlen x (by simp [hx])),
      getD_vecAdd _ _ _ (by omega) (by simp [scaleVec]; omega),
      getD_scaleVec _ _ _ (by omega)]
    simp [add_assoc]

/-! ## Claim theorems -/

/-- C10: the children ordering returned by `mode_heuristic` is a
permutation of all mode indices `{0,…,nm-1}`, both with and without the
parent-mode promotion (i.e. for empty and nonempty installed partial
sequences). -/
theorem mode_heuristic_order_perm (nm : ℕ) (d : List (List ℚ))
    (seq : List ℕ) (hlen : seq.length < d.length)
    (hrows : ∀ row ∈ d, row.length = nm)
    (hlast : seq ≠ [] → seq.getD (seq.length - 1) 0 < nm) :
    List.Perm (mode_heuristic seq d).1 (List.range nm) := by
  have hscore : (d.getD seq.length []).length = nm :=
    hrows _ (getD_mem_of_lt d [] seq.length hlen)
  have hbase : List.Perm (argsortDesc (d.getD seq.length []))
      (List.range nm) := by
    have := argsortDesc_perm (d.getD seq.length [])
    rwa [hscore] at this
  unfold mode_heuristic
  by_cases h : 0 < seq.length
  · simp only [h, if_true]
    have hl : seq.getD (seq.length - 1) 0 < nm :=
      hlast (by intro hh; rw [hh] at h; simp at h)
    have hmem : seq.getD (seq.length - 1) 0 ∈
        argsortDesc (d.getD seq.length []) :=
      hbase.mem_iff.mpr (List.mem_range.mpr hl)
    exact ((List.perm_cons_erase hmem).symm).trans hbase
  · simp only [h, if_false]
    exact hbase

/-- Witness for C10 with one relaxed stage and an empty partial
sequence. -/
theorem mode_heuristic_order_perm_witness :
    List.Perm (mode_heuristic [] [[1/3, 2/3]]).1 (List.range 2) :=
  mode_heuristic_order_perm 2 [[1/3, 2/3]] []
    (by decide) (by decide) (by decide)

/-- C8: `mode_heuristic` returns as score the relaxed indicator row at
stage `t = length(partial)`, and as ordering the mode indices sorted by
descending score; when the partial sequence is nonempty its last entry
is moved to the front of that ordering. -/
theorem mode_heuristic_spec (nm : ℕ) (d : List (List ℚ))
    (seq : List ℕ) (hlen : seq.length < d.length)
    (hrows : ∀ row ∈ d, row.length = nm)
    (hlast : seq ≠ [] → seq.getD (seq.length - 1) 0 < nm) :
    (mode_heuristic seq d).2 = d.getD seq.length [] ∧
    ∃ base : List ℕ,
      List.Perm base (List.range nm) ∧
      List.Sorted (fun a b =>
        (d.getD seq.length []).getD b 0 ≤
          (d.getD seq.length []).getD a 0) base ∧
      (seq = [] → (mode_heuristic seq d).1 = base) ∧
      (seq ≠ [] → (mode_heuristic seq d).1 =
        seq.getD (seq.length - 1) 0 ::
          base.erase (seq.getD (seq.length - 1) 0)) := by
  have hscore : (d.getD seq.length []).length = nm :=
    hrows _ (getD_mem_of_lt d [] seq.length hlen)
  refine ⟨rfl, argsortDesc (d.getD seq.length []), ?_,
    argsortDesc_sorted _, ?_, ?_⟩
  · have := argsortDesc_perm (d.getD seq.length [])
    rwa [hscore] at this
  · intro h
    unfold mode_heuristic
    simp [h]
  · intro h
    have hpos : 0 < seq.length := List.length_pos.mpr h
    unfold mode_heuristic
    simp [hpos]

/-- Witness for C8 with a nonempty partial sequence (parent mode 0). -/
theorem mode_heuristic_spec_witness :
    (mode_heuristic [0] [[1/4, 3/4], [1/2, 1/2]]).2 =
      [[(1:ℚ)/4, 3/4], [1/2, 1/2]].getD [0].length [] ∧
    ∃ base : List ℕ,
      List.Perm base (List.range 2) ∧
      List.Sorted (fun a b =>
        ([[(1:ℚ)/4, 3/4], [1/2, 1/2]].getD [0].length []).getD b 0 ≤
          ([[(1:ℚ)/4, 3/4], [1/2, 1/2]].getD [0].length []).getD a 0)
        base ∧
      ([0] = ([] : List ℕ) →
        (mode_heuristic [0] [[1/4, 3/4], [1/2, 1/2]]).1 = base) ∧
      ([0] ≠ ([] : List ℕ) →
        (mode_heuristic [0] [[1/4, 3/4], [1/2, 1/2]]).1 =
          [0].getD ([0].length - 1) 0 ::
            base.erase ([0].getD ([0].length - 1) 0)) :=
  mode_heuristic_spec 2 [[1/4, 3/4], [1/2, 1/2]] [0]
    (by decide) (by decide) (by decide)

/-- C3: in the big-M branches of `build_mpmiqp`, for every stage
`t < N`, mode `i` and row `k`, the plain big-M method adds the
constraint `A_i[k]·xux ≤ b_i[k] + mi[i][k]·(1 - d_t[i])` and the
improved big-M method adds
`A_i[k]·xux ≤ b_i[k] + Σ_{j ≠ i} m[i][j][k]·d_t[j]`, with `P`, `m`,
`mi` computed by `get_graph_representation` and `get_big_m` (default
tolerance `1e-6`). -/
theorem bigM_encoding (lp : List ℚ → List (List ℚ) → List ℚ → ℚ)
    (S : PWASystem) (N t i k : ℕ) (ht : t < N) (hi : i < S.nm)
    (hk : k < ((get_graph_representation S).getD i default).A.length) :
    (⟨t, fun xux d =>
        dot (((get_graph_representation S).getD i default).A.getD k []) xux ≤
          ((get_graph_representation S).getD i default).b.getD k 0 +
            (((get_big_m lp (get_graph_representation S)
                (1/1000000)).2).getD i []).getD k 0 * (1 - d.getD i 0)⟩ :
        DynConstr) ∈
      bigM_dyn_constraints "big_m" (get_graph_representation S)
        (get_big_m lp (get_graph_representation S) (1/1000000)).1
        (get_big_m lp (get_graph_representation S) (1/1000000)).2 N S.nm ∧
    (⟨t, fun xux d =>
        dot (((get_graph_representation S).getD i default).A.getD k []) xux ≤
          ((get_graph_representation S).getD i default).b.getD k 0 +
            (((List.range S.nm).filter (fun j => j ≠ i)).map (fun j =>
              ((((get_big_m lp (get_graph_representation S)
                  (1/1000000)).1).getD i []).getD j []).getD k 0 *
                d.getD j 0)).sum⟩ : DynConstr) ∈
      bigM_dyn_constraints "improved_big_m" (get_graph_representation S)
        (get_big_m lp (get_graph_representation S) (1/1000000)).1
        (get_big_m lp (get_graph_representation S) (1/1000000)).2 N S.nm := by
  have hPlen : (get_graph_representation S).length = S.nm := by
    simp [get_graph_representation]
  have hiP : i < (get_graph_representation S).length := by omega
  constructor
  · unfold bigM_dyn_constraints
    rw [List.mem_flatMap]
    refine ⟨t, List.mem_range.mpr ht, ?_⟩
    rw [if_pos (Or.inl rfl), List.mem_flatMap]
    refine ⟨i, List.mem_range.mpr hi, ?_⟩
    rw [List.mem_append]
    left
    rw [if_pos rfl, List.mem_map]
    exact ⟨k, List.mem_range.mpr hk, rfl⟩
  · unfold bigM_dyn_constraints
    rw [List.mem_flatMap]
    refine ⟨t, List.mem_range.mpr ht, ?_⟩
    rw [if_pos (Or.inr rfl), List.mem_flatMap]
    refine ⟨i, List.mem_range.mpr hi, ?_⟩
    rw [List.mem_append]
    right
    rw [if_pos rfl, List.mem_map]
    refine ⟨k, List.mem_range.mpr hk, ?_⟩
    have hmrow : ∀ j, j < S.nm →
        ((((get_big_m lp (get_graph_representation S) (1/1000000)).1).getD
            i []).getD j []).length =
          ((get_graph_representation S).getD i default).A.length := by
      intro j hj
      simp only [get_big_m]
      rw [getD_map_list _ _ _ _ default hiP,
        getD_map_list _ _ _ _ default
          (by omega : j < (get_graph_representation S).length)]
      simp
    have hz : ∀ dd : List ℚ,
        (((List.range S.nm).filter (fun j => j ≠ i)).foldl
          (fun acc2 j => vecAdd acc2 (scaleVec (dd.getD j 0)
            ((((get_big_m lp (get_graph_representation S)
                (1/1000000)).1).getD i []).getD j [])))
          (List.replicate
            ((get_graph_representation S).getD i default).A.length 0)).getD
            k 0 =
        (((List.range S.nm).filter (fun j => j ≠ i)).map (fun j =>
          ((((get_big_m lp (get_graph_representation S)
              (1/1000000)).1).getD i []).getD j []).getD k 0 *
            dd.getD j 0)).sum := by
      intro dd
      rw [foldl_vecAdd_scale_getD (fun j => dd.getD j 0)
        (fun j => (((get_big_m lp (get_graph_representation S)
            (1/1000000)).1).getD i []).getD j [])
        ((get_graph_representation S).getD i default).A.length k hk
        _ _ (by simp)
        (fun j hj => hmrow j (List.mem_range.mp (List.mem_filter.mp hj).1))]
      rw [List.getD_eq_getElem _ _ (by simpa using hk)]
      simp only [List.getElem_replicate, zero_add]
      exact congrArg List.sum (List.map_congr_left (fun j _ => mul_comm _ _))
    exact congrArg (DynConstr.mk t) (funext fun xux => funext fun dd =>
      congrArg (fun z =>
        dot (((get_graph_representation S).getD i default).A.getD k []) xux ≤
          ((get_graph_representation S).getD i default).b.getD k 0 + z)
        (hz dd))

/-- Witness for C3 (plain big-M part) on a concrete one-mode system. -/
theorem bigM_encoding_witness :
    (⟨0, fun xux d =>
        dot (((get_graph_representation
            ⟨1, 1, 1, [⟨[[1, 0]], [1]⟩], [⟨[[1]], [[1]], [0]⟩]⟩).getD 0
            default).A.getD 0 []) xux ≤
          ((get_graph_representation
            ⟨1, 1, 1, [⟨[[1, 0]], [1]⟩], [⟨[[1]], [[1]], [0]⟩]⟩).getD 0
            default).b.getD 0 0 +
            (((get_big_m (fun _ _ _ => 0) (get_graph_representation
                ⟨1, 1, 1, [⟨[[1, 0]], [1]⟩], [⟨[[1]], [[1]], [0]⟩]⟩)
                (1/1000000)).2).getD 0 []).getD 0 0 * (1 - d.getD 0 0)⟩ :
        DynConstr) ∈
      bigM_dyn_constraints "big_m"
        (get_graph_representation
          ⟨1, 1, 1, [⟨[[1, 0]], [1]⟩], [⟨[[1]], [[1]], [0]⟩]⟩)
        (get_big_m (fun _ _ _ => 0) (get_graph_representation
          ⟨1, 1, 1, [⟨[[1, 0]], [1]⟩], [⟨[[1]], [[1]], [0]⟩]⟩) (1/1000000)).1
        (get_big_m (fun _ _ _ => 0) (get_graph_representation
          ⟨1, 1, 1, [⟨[[1, 0]], [1]⟩], [⟨[[1]], [[1]], [0]⟩]⟩) (1/1000000)).2
        1 1 :=
  (bigM_encoding (fun _ _ _ => 0)
    ⟨1, 1, 1, [⟨[[1, 0]], [1]⟩], [⟨[[1]], [[1]], [0]⟩]⟩ 1 0 0 0
    (by decide) (by decide) (by decide)).1

/-- C1: entry `(i,j,k)` of the `m` table computed by `get_big_m` is
`-optimal_value - b_i[k]` for the LP `min (-A_i[k])·w` over mode `j`'s
polyhedron, snapped to exactly `0` when its absolute value is below the
tolerance (the source default is `1e-6`). -/
theorem get_big_m_entry (lp : List ℚ → List (List ℚ) → List ℚ → ℚ)
    (P_list : List Polyhedron) (tol : ℚ) (i j k : ℕ)
    (hi : i < P_list.length) (hj : j < P_list.length)
    (hk : k < (P_list.getD i default).A.length) :
    (((get_big_m lp P_list tol).1.getD i []).getD j []).getD k 0 =
      if |(- lp (vecNeg ((P_list.getD i default).A.getD k []))
            (P_list.getD j default).A (P_list.getD j default).b
          - (P_list.getD i default).b.getD k 0)| < tol then 0
      else - lp (vecNeg ((P_list.getD i default).A.getD k []))
            (P_list.getD j default).A (P_list.getD j default).b
          - (P_list.getD i default).b.getD k 0 := by
  simp only [get_big_m]
  rw [getD_map_list _ _ _ _ default hi, getD_map_list _ _ _ _ default hj,
    getD_map_list _ _ _ _ 0 (by simpa using hk), getD_range hk]

/-- Witness for C1 at a one-row polyhedron and a constant LP oracle:
`m[0][0][0] = -(-3) - 2 = 1`, not snapped since `|1| ≥ 1e-6`. -/
theorem get_big_m_entry_witness :
    (((get_big_m (fun _ _ _ => -3) [⟨[[1]], [2]⟩]
        (1/1000000)).1.getD 0 []).getD 0 []).getD 0 0 = 1 := by
  rw [get_big_m_entry (fun _ _ _ => -3) [⟨[[1]], [2]⟩] (1/1000000) 0 0 0
    (by decide) (by decide) (by decide)]
  norm_num [List.getD]

/-- C2: the aggregate `mi[i][k]` computed by `get_big_m` is the maximum
over all modes `j` (including `j = i`) of `m[i][j][k]`: it dominates
every `m[i][j][k]` and is attained at some `j`. -/
theorem get_big_m_mi_max (lp : List ℚ → List (List ℚ) → List ℚ → ℚ)
    (P_list : List Polyhedron) (tol : ℚ) (i k : ℕ)
    (hi : i < P_list.length) (hk : k < (P_list.getD i default).A.length) :
    (∀ j, j < P_list.length →
      (((get_big_m lp P_list tol).1.getD i []).getD j []).getD k 0 ≤
        ((get_big_m lp P_list tol).2.getD i []).getD k 0) ∧
    (∃ j, j < P_list.length ∧
      ((get_big_m lp P_list tol).2.getD i []).getD k 0 =
        (((get_big_m lp P_list tol).1.getD i []).getD j []).getD k 0) := by
  simp only [get_big_m]
  rw [getD_map_list _ _ _ _ [] (by simpa using hi),
    getD_map_list _ _ _ _ default hi]
  rcases maxReduce_getD_spec
    (P_list.map (fun Pj =>
      (List.range (P_list.getD i default).A.length).map fun kk =>
        if |(- lp (vecNeg ((P_list.getD i default).A.getD kk []))
              Pj.A Pj.b - (P_list.getD i default).b.getD kk 0)| < tol then 0
        else - lp (vecNeg ((P_list.getD i default).A.getD kk []))
              Pj.A Pj.b - (P_list.getD i default).b.getD kk 0))
    ((P_list.getD i default).A.length) k hk
    (List.ne_nil_of_length_pos (by simp; omega))
    (fun v hv => by
      rcases List.mem_map.mp hv with ⟨Pj, _, he⟩
      simp [← he]) with ⟨hub, v, hv, he⟩
  constructor
  · intro j hjlen
    exact hub _ (getD_mem_of_lt _ [] j (by simpa using hjlen))
  · rcases List.mem_iff_getElem.mp hv with ⟨j, hjl, hje⟩
    refine ⟨j, by simpa using hjl, ?_⟩
    exact he.trans
      (congrArg (fun w => w.getD k 0) (getD_eq_of_getElem [] hjl hje)).symm

/-- Witness for C2 on a concrete two-mode table. -/
theorem get_big_m_mi_max_witness :
    ∃ j, j < 2 ∧
      ((get_big_m (fun _ _ _ => 0) [⟨[[1]], [2]⟩, ⟨[[1]], [4]⟩]
          (1/1000000)).2.getD 0 []).getD 0 0 =
        (((get_big_m (fun _ _ _ => 0) [⟨[[1]], [2]⟩, ⟨[[1]], [4]⟩]
            (1/1000000)).1.getD 0 []).getD j []).getD 0 0 := by
  have h := (get_big_m_mi_max (fun _ _ _ => 0)
    [⟨[[1]], [2]⟩, ⟨[[1]], [4]⟩] (1/1000000) 0 0
    (by decide) (by decide)).2
  simpa using h

/-- C4 (amended): `solve_relaxation` maps a cutoff status (6) to
`cutoff = true`, `feasible = None`, no solution fields; an optimal
status (2) to `feasible = true` with solution fields populated; and
EVERY other status — including the sub-optimal status 13, contrary to
the original claim — to `feasible = false` with no solution fields. -/
theorem solve_relaxation_status_mapping :
    solve_relaxation_status 6 = ⟨true, none, false⟩ ∧
    solve_relaxation_status 2 = ⟨false, some true, true⟩ ∧
    ∀ s : ℕ, s ≠ 6 → s ≠ 2 →
      solve_relaxation_status s = ⟨false, some false, false⟩ := by
  refine ⟨by decide, by decide, ?_⟩
  intro s h6 h2
  have hc : (read_gurobi_status s == some "cutoff") = false := by
    rw [beq_eq_false_iff_ne]
    exact fun h => h6 ((read_status_cutoff_iff s).mp h)
  have ho : (read_gurobi_status s == some "optimal") = false := by
    rw [beq_eq_false_iff_ne]
    exact fun h => h2 ((read_status_optimal_iff s).mp h)
  simp [solve_relaxation_status, hc, ho]

/-- Witness for C4: status 3 (infeasible) yields `feasible = false` and
no solution fields. -/
theorem solve_relaxation_status_mapping_witness :
    solve_relaxation_status 3 = ⟨false, some false, false⟩ :=
  solve_relaxation_status_mapping.2.2 3 (by decide) (by decide)

/-- C4 counterexample: for the Gurobi sub-optimal status 13, the code
reports `feasible = false`, not `feasible = true` with populated
solution fields as the claim states. -/
theorem solve_relaxation_status_suboptimal_counterexample :
    ¬ ((solve_relaxation_status 13).feasible = some true ∧
       (solve_relaxation_status 13).has_solution_fields = true) := by
  decide

/-- C7: `update_mode_sequence` is idempotent — after installing a
partial mode sequence `p` (entries valid modes, length at most `N`),
installing it again changes no indicator lower bound. -/
theorem update_mode_sequence_idem (N nm : ℕ) (st : CtrlState) (p : List ℕ)
    (hlen : p.length ≤ N) (hvalid : ∀ x ∈ p, x < nm) :
    ∀ t i, (update_mode_sequence N (update_mode_sequence N st p) p).lbD t i =
      (update_mode_sequence N st p).lbD t i := by
  intro t i
  have hfold : ∀ (f : ℕ → ℕ → ℚ) (u : ℕ),
      (if u < p.length ∧ u < p.length then
        (if p.getD u 0 ≠ p.getD u 0 then
          setLB (setLB f u (p.getD u 0) 0) u (p.getD u 0) 1
        else f)
      else if u ≥ p.length ∧ u < p.length then
        setLB f u (p.getD u 0) 0
      else if u < p.length ∧ u ≥ p.length then
        setLB f u (p.getD u 0) 1
      else f) = f := by
    intro f u
    by_cases h : u < p.length
    · simp [h]
    · simp [h]
  simp only [update_mode_sequence]
  rw [foldl_id _ hfold]

/-- Witness for C7 at a concrete state and sequence. -/
theorem update_mode_sequence_idem_witness :
    (update_mode_sequence 2
        (update_mode_sequence 2 ⟨fun _ _ => 0, []⟩ [1, 0]) [1, 0]).lbD 0 1 =
      (update_mode_sequence 2 ⟨fun _ _ => 0, []⟩ [1, 0]).lbD 0 1 :=
  update_mode_sequence_idem 2 2 ⟨fun _ _ => 0, []⟩ [1, 0]
    (by decide) (by decide) 0 1

/-- C9 (amended): every mode indicator `d_t[i]` is declared as a
continuous variable with lower bound `0` and upper bound `+∞` (Gurobi's
`addVars` default), not upper bound `1` as the original claim states;
the `[0,1]` confinement follows from the simplex row, not from the
declared bound. -/
theorem build_vars_d_decl (nx nu nm N : ℕ) (method : String) (t i : ℕ)
    (ht : t < N) (hi : i < nm) :
    (⟨dName t i, some 0, none, 'C'⟩ : VarDecl) ∈
      build_vars nx nu nm N method := by
  unfold build_vars
  rw [List.mem_flatMap]
  refine ⟨t, List.mem_range.mpr ht, ?_⟩
  simp only [List.mem_append, addVarsNamed, List.mem_map, List.mem_range]
  exact Or.inl (Or.inr ⟨i, hi, rfl⟩)

/-- Witness for C9's amended theorem at a concrete program. -/
theorem build_vars_d_decl_witness :
    (⟨dName 0 0, some 0, none, 'C'⟩ : VarDecl) ∈
      build_vars 1 1 1 1 "big_m" :=
  build_vars_d_decl 1 1 1 1 "big_m" 0 0 (by decide) (by decide)

/-- C9 counterexample: in a concrete one-stage, one-mode program the
only declaration named `d0[0]` has upper bound `+∞`, and no declaration
with upper bound `1` exists for it. -/
theorem build_vars_d_ub_counterexample :
    ((build_vars 1 1 1 1 "big_m").filter
        (fun v => v.vname == dName 0 0) =
      [⟨dName 0 0, some 0, none, 'C'⟩]) ∧
    (⟨dName 0 0, some 0, some 1, 'C'⟩ : VarDecl) ∉
      build_vars 1 1 1 1 "big_m" := by
  decide

theorem dot_cons (a b : ℚ) (v w : List ℚ) :
    dot (a :: v) (b :: w) = a * b + dot v w := by
  simp [dot]

theorem dot_append (v1 v2 w1 w2 : List ℚ) (h : v1.length = w1.length) :
    dot (v1 ++ v2) (w1 ++ w2) = dot v1 w1 + dot v2 w2 := by
  unfold dot
  rw [List.zipWith_append _ _ _ _ _ h, List.sum_append]

theorem dot_replicate_zero (n : ℕ) (w : List ℚ) :
    dot (List.replicate n 0) w = 0 := by
  induction n generalizing w with
  | zero => rfl
  | succ n ih =>
    cases w with
    | nil => rfl
    | cons b bs =>
      rw [List.replicate_succ, dot_cons, ih bs]
      ring

theorem dot_vecNeg (v w : List ℚ) : dot (vecNeg v) w = - dot v w := by
  induction v generalizing w with
  | nil => simp [dot, vecNeg]
  | cons a as ih =>
    cases w with
    | nil => simp [dot, vecNeg]
    | cons b bs =>
      show dot (-a :: vecNeg as) (b :: bs) = _
      rw [dot_cons, dot_cons, ih bs]
      ring

theorem dot_stdRow (n : ℕ) : ∀ (r : ℕ) (w : List ℚ), w.length = n → r < n →
    dot (stdRow n r) w = w.getD r 0 := by
  induction n with
  | zero => intro r w _ hr; omega
  | succ n ih =>
    intro r w hw hr
    cases w with
    | nil => simp at hw
    | cons b bs =>
      have hbs : bs.length = n := by simpa using hw
      unfold stdRow
      rw [List.range_succ_eq_map, List.map_cons, List.map_map]
      cases r with
      | zero =>
        have hmap : (List.range n).map
            ((fun j => if 0 = j then (1:ℚ) else 0) ∘ Nat.succ) =
            List.replicate n 0 := by
          rw [show ((fun j => if 0 = j then (1:ℚ) else 0) ∘ Nat.succ) =
              fun j => (0:ℚ) by
            funext j
            simp only [Function.comp]
            rw [if_neg (by omega)]]
          simp
        rw [hmap, if_pos rfl, dot_cons, dot_replicate_zero]
        simp
      | succ r =>
        have hmap : (List.range n).map
            ((fun j => if r + 1 = j then (1:ℚ) else 0) ∘ Nat.succ) =
            stdRow n r := by
          unfold stdRow
          refine List.map_congr_left ?_
          intro j _
          simp only [Function.comp]
          by_cases h : r = j
          · rw [if_pos (by omega), if_pos h]
          · rw [if_neg (by omega), if_neg h]
        rw [hmap, if_neg (by omega), dot_cons, ih r bs hbs (by omega)]
        simp


theorem feasible_append (A1 A2 : List (List ℚ)) (b1 b2 : List ℚ)
    (w : List ℚ) (h : A1.length = b1.length) :
    feasible ⟨A1 ++ A2, b1 ++ b2⟩ w ↔
      feasible ⟨A1, b1⟩ w ∧ feasible ⟨A2, b2⟩ w := by
  unfold feasible
  simp only [List.length_append]
  constructor
  · intro hf
    constructor
    · intro k hk
      have := hf k (by omega)
      rwa [List.getD_append _ _ _ _ hk, List.getD_append _ _ _ _ (by omega)]
        at this
    · intro k hk
      have := hf (A1.length + k) (by omega)
      rwa [List.getD_append_right _ _ _ _ (by omega),
        List.getD_append_right _ _ _ _ (by omega),
        Nat.add_sub_cancel_left, h, Nat.add_sub_cancel_left] at this
  · rintro ⟨h1, h2⟩ k hk
    by_cases hcase : k < A1.length
    · rw [List.getD_append _ _ _ _ hcase, List.getD_append _ _ _ _ (by omega)]
      exact h1 k hcase
    · rw [List.getD_append_right _ _ _ _ (by omega),
        List.getD_append_right _ _ _ _ (by omega), h]
      exact h2 (k - b1.length) (by omega)


theorem getD_hcat (M N : List (List ℚ)) (r : ℕ) (hM : r < M.length)
    (hN : r < N.length) :
    (hcat M N).getD r [] = M.getD r [] ++ N.getD r [] := by
  rw [List.getD_eq_getElem _ _
      (by simp [hcat, List.length_zipWith]; omega),
    List.getD_eq_getElem _ _ hM, List.getD_eq_getElem _ _ hN]
  simp [hcat]

theorem getD_replicate_list (m n k : ℕ) (hk : k < m) :
    (zeros m n).getD k [] = List.replicate n 0 := by
  rw [List.getD_eq_getElem _ _ (by simpa [zeros] using hk)]
  simp [zeros]

theorem getD_negMat (M : List (List ℚ)) (k : ℕ) (hk : k < M.length) :
    (negMat M).getD k [] = vecNeg (M.getD k []) := by
  unfold negMat
  rw [getD_map_list _ _ _ _ [] hk]

theorem getD_eye (n k : ℕ) (hk : k < n) :
    (eye n).getD k [] = stdRow n k := by
  unfold eye
  rw [getD_map_list _ _ _ _ 0 (by simpa using hk), getD_range hk]

theorem getD_vecNeg (v : List ℚ) (k : ℕ) (hk : k < v.length) :
    (vecNeg v).getD k 0 = - v.getD k 0 := by
  unfold vecNeg
  rw [List.getD_eq_getElem _ _ (by simpa using hk),
    List.getD_eq_getElem _ _ hk]
  simp

theorem getD_matVec (M : List (List ℚ)) (x : List ℚ) (k : ℕ)
    (hk : k < M.length) :
    (matVec M x).getD k 0 = dot (M.getD k []) x := by
  unfold matVec
  rw [getD_map_list _ _ _ _ [] hk]

/-- The domain block `[D.A | 0]` constrains exactly `(x,u)`. -/
theorem domain_block_iff (DA : List (List ℚ)) (Db : List ℚ) (nx nu : ℕ)
    (x u x2 : List ℚ) (hDA : ∀ row ∈ DA, row.length = nx + nu)
    (hx : x.length = nx) (hu : u.length = nu) :
    feasible ⟨hcat DA (zeros DA.length nx), Db⟩ (x ++ u ++ x2) ↔
      feasible ⟨DA, Db⟩ (x ++ u) := by
  unfold feasible
  dsimp only
  have hlen : (hcat DA (zeros DA.length nx)).length = DA.length := by
    simp [hcat, zeros, List.length_zipWith]
  have hrow : ∀ k, k < DA.length →
      dot ((hcat DA (zeros DA.length nx)).getD k []) (x ++ u ++ x2) =
        dot (DA.getD k []) (x ++ u) := by
    intro k hk
    rw [getD_hcat _ _ _ hk (by simpa [zeros] using hk),
      getD_replicate_list _ _ _ hk,
      dot_append _ _ _ _ (by
        rw [hDA (DA.getD k []) (getD_mem_of_lt DA [] k hk)]
        simp [hx, hu]),
      dot_replicate_zero, add_zero]
  constructor
  · intro hf k hk
    have := hf k (by omega)
    rwa [hrow k hk] at this
  · intro hf k hk
    rw [hrow k (by omega)]
    exact hf k (by omega)


theorem length_vecNeg (v : List ℚ) : (vecNeg v).length = v.length := by
  simp [vecNeg]

/-- The forward and backward dynamics blocks together say exactly
`x+ = A x + B u + c`. -/
theorem dyn_blocks_iff (SA SB : List (List ℚ)) (c x u x2 : List ℚ)
    (nx nu : ℕ)
    (hSA : SA.length = nx) (hSAr : ∀ row ∈ SA, row.length = nx)
    (hSB : SB.length = nx) (hSBr : ∀ row ∈ SB, row.length = nu)
    (hc : c.length = nx) (hx : x.length = nx) (hu : u.length = nu)
    (hx2 : x2.length = nx) :
    (feasible ⟨hcat (hcat SA SB) (negMat (eye nx)), vecNeg c⟩
        (x ++ u ++ x2) ∧
     feasible ⟨hcat (hcat (negMat SA) (negMat SB)) (eye nx), c⟩
        (x ++ u ++ x2)) ↔
    x2 = vecAdd (vecAdd (matVec SA x) (matVec SB u)) c := by
  have hEyeLen : (eye nx).length = nx := by simp [eye]
  have hNegEyeLen : (negMat (eye nx)).length = nx := by simp [negMat, eye]
  have hNegSALen : (negMat SA).length = nx := by simp [negMat, hSA]
  have hNegSBLen : (negMat SB).length = nx := by simp [negMat, hSB]
  have hB2len : (hcat (hcat SA SB) (negMat (eye nx))).length = nx := by
    simp [hcat, List.length_zipWith, hSA, hSB, negMat, eye]
  have hB3len : (hcat (hcat (negMat SA) (negMat SB)) (eye nx)).length = nx := by
    simp [hcat, List.length_zipWith, hSA, hSB, negMat, eye]
  have hSAk : ∀ k, k < nx → (SA.getD k []).length = nx := fun k hk =>
    hSAr _ (getD_mem_of_lt SA [] k (by omega))
  have hSBk : ∀ k, k < nx → (SB.getD k []).length = nu := fun k hk =>
    hSBr _ (getD_mem_of_lt SB [] k (by omega))
  have hdot2 : ∀ k, k < nx →
      dot ((hcat (hcat SA SB) (negMat (eye nx))).getD k []) (x ++ u ++ x2) =
        dot (SA.getD k []) x + dot (SB.getD k []) u - x2.getD k 0 := by
    intro k hk
    rw [getD_hcat _ _ _ (by simp [hcat, List.length_zipWith]; omega)
        (by omega),
      getD_hcat _ _ _ (by omega) (by omega),
      getD_negMat _ _ (by omega), getD_eye _ _ hk,
      dot_append _ _ _ _ (by
        rw [List.length_append, List.length_append, hSAk k hk,
          hSBk k hk, hx, hu]),
      dot_append _ _ _ _ (by rw [hSAk k hk, hx]),
      dot_vecNeg, dot_stdRow nx k x2 hx2 hk]
    ring
  have hdot3 : ∀ k, k < nx →
      dot ((hcat (hcat (negMat SA) (negMat SB)) (eye nx)).getD k [])
          (x ++ u ++ x2) =
        - dot (SA.getD k []) x - dot (SB.getD k []) u + x2.getD k 0 := by
    intro k hk
    rw [getD_hcat _ _ _ (by simp [hcat, List.length_zipWith]; omega)
        (by omega),
      getD_hcat _ _ _ (by omega) (by omega),
      getD_negMat _ _ (by omega), getD_negMat _ _ (by omega),
      getD_eye _ _ hk,
      dot_append _ _ _ _ (by
        rw [List.length_append, List.length_append, length_vecNeg,
          length_vecNeg, hSAk k hk, hSBk k hk, hx, hu]),
      dot_append _ _ _ _ (by rw [length_vecNeg, hSAk k hk, hx]),
      dot_vecNeg, dot_vecNeg, dot_stdRow nx k x2 hx2 hk]
    ring
  have hrhsLen : (vecAdd (vecAdd (matVec SA x) (matVec SB u)) c).length
      = nx := by
    simp [length_vecAdd, matVec, hSA, hSB, hc]
  have hrhsGetD : ∀ k, k < nx →
      (vecAdd (vecAdd (matVec SA x) (matVec SB u)) c).getD k 0 =
        dot (SA.getD k []) x + dot (SB.getD k []) u + c.getD k 0 := by
    intro k hk
    rw [getD_vecAdd _ _ _ (by simp [length_vecAdd, matVec, hSA, hSB]; omega)
        (by omega),
      getD_vecAdd _ _ _ (by simp [matVec, hSA]; omega)
        (by simp [matVec, hSB]; omega),
      getD_matVec _ _ _ (by omega), getD_matVec _ _ _ (by omega)]
  unfold feasible
  dsimp only
  constructor
  · rintro ⟨h2, h3⟩
    refine List.ext_getElem (by rw [hx2, hrhsLen]) ?_
    intro k hk1 hk2
    have hknx : k < nx := by rw [hx2] at hk1; exact hk1
    have i2 := h2 k (by rw [hB2len]; exact hknx)
    have i3 := h3 k (by rw [hB3len]; exact hknx)
    rw [hdot2 k hknx, getD_vecNeg _ _ (by rw [hc]; exact hknx)] at i2
    rw [hdot3 k hknx] at i3
    have hgd : x2.getD k 0 =
        (vecAdd (vecAdd (matVec SA x) (matVec SB u)) c).getD k 0 := by
      rw [hrhsGetD k hknx]
      linarith
    rw [List.getD_eq_getElem _ _ hk1, List.getD_eq_getElem _ _ hk2] at hgd
    exact hgd
  · intro he
    have hpt : ∀ k, k < nx → x2.getD k 0 =
        dot (SA.getD k []) x + dot (SB.getD k []) u + c.getD k 0 := by
      intro k hk
      rw [he, hrhsGetD k hk]
    constructor
    · intro k hk
      have hknx : k < nx := by rw [hB2len] at hk; exact hk
      rw [hdot2 k hknx, getD_vecNeg _ _ (by rw [hc]; exact hknx),
        hpt k hknx]
      linarith
    · intro k hk
      have hknx : k < nx := by rw [hB3len] at hk; exact hk
      rw [hdot3 k hknx, hpt k hknx]
      linarith


/-- C5: `get_graph_representation` stacks, per mode `i`, the domain
rows `[D.A | 0]`, the forward rows `[A | B | -I]` with rhs `-c`, and the
backward rows `[-A | -B | I]` with rhs `c`; its row count is the domain
row count plus `2·nx`; and its feasible set is exactly the domain points
`(x,u)` with `x+ = A x + B u + c`. -/
theorem graph_representation_spec (S : PWASystem) (i : ℕ) (hi : i < S.nm)
    (hDA : ∀ row ∈ (S.domains.getD i default).A,
      row.length = S.nx + S.nu)
    (hDb : (S.domains.getD i default).b.length =
      (S.domains.getD i default).A.length)
    (hSA : (S.affine_systems.getD i default).A.length = S.nx)
    (hSAr : ∀ row ∈ (S.affine_systems.getD i default).A,
      row.length = S.nx)
    (hSB : (S.affine_systems.getD i default).B.length = S.nx)
    (hSBr : ∀ row ∈ (S.affine_systems.getD i default).B,
      row.length = S.nu)
    (hSc : (S.affine_systems.getD i default).c.length = S.nx) :
    ((get_graph_representation S).getD i default : Polyhedron) =
      ⟨hcat (S.domains.getD i default).A
          (zeros (S.domains.getD i default).A.length S.nx)
        ++ hcat (hcat (S.affine_systems.getD i default).A
              (S.affine_systems.getD i default).B)
            (negMat (eye S.nx))
        ++ hcat (hcat (negMat (S.affine_systems.getD i default).A)
              (negMat (S.affine_systems.getD i default).B)) (eye S.nx),
        (S.domains.getD i default).b
          ++ vecNeg (S.affine_systems.getD i default).c
          ++ (S.affine_systems.getD i default).c⟩ ∧
    ((get_graph_representation S).getD i default).A.length =
      (S.domains.getD i default).A.length + 2 * S.nx ∧
    (∀ x u x2 : List ℚ, x.length = S.nx → u.length = S.nu →
      x2.length = S.nx →
      (feasible ((get_graph_representation S).getD i default)
          (x ++ u ++ x2) ↔
        (feasible (S.domains.getD i default) (x ++ u) ∧
         x2 = vecAdd (vecAdd
            (matVec (S.affine_systems.getD i default).A x)
            (matVec (S.affine_systems.getD i default).B u))
            (S.affine_systems.getD i default).c))) := by
  have hP : (get_graph_representation S).getD i default =
      ⟨hcat (S.domains.getD i default).A
          (zeros (S.domains.getD i default).A.length S.nx)
        ++ hcat (hcat (S.affine_systems.getD i default).A
              (S.affine_systems.getD i default).B)
            (negMat (eye S.nx))
        ++ hcat (hcat (negMat (S.affine_systems.getD i default).A)
              (negMat (S.affine_systems.getD i default).B)) (eye S.nx),
        (S.domains.getD i default).b
          ++ vecNeg (S.affine_systems.getD i default).c
          ++ (S.affine_systems.getD i default).c⟩ := by
    unfold get_graph_representation
    rw [getD_map_list _ _ _ default 0 (by simpa using hi), getD_range hi]
  have hB1len : (hcat (S.domains.getD i default).A
      (zeros (S.domains.getD i default).A.length S.nx)).length =
      (S.domains.getD i default).A.length := by
    unfold hcat
    rw [List.length_zipWith]
    simp only [zeros, List.length_replicate]
    omega
  have hB2len : (hcat (hcat (S.affine_systems.getD i default).A
      (S.affine_systems.getD i default).B) (negMat (eye S.nx))).length =
      S.nx := by
    unfold hcat
    rw [List.length_zipWith, List.length_zipWith]
    simp only [negMat, List.length_map, eye, List.length_range]
    rw [hSA, hSB]
    omega
  have hB3len : (hcat (hcat (negMat (S.affine_systems.getD i default).A)
      (negMat (S.affine_systems.getD i default).B)) (eye S.nx)).length =
      S.nx := by
    unfold hcat
    rw [List.length_zipWith, List.length_zipWith]
    simp only [negMat, List.length_map, eye, List.length_range]
    rw [hSA, hSB]
    omega
  refine ⟨hP, ?_, ?_⟩
  · rw [hP]
    dsimp only
    rw [List.length_append, List.length_append, hB1len, hB2len, hB3len]
    ring
  · intro x u x2 hx hu hx2
    rw [hP]
    rw [feasible_append _ _ _ _ _ (by
        rw [List.length_append, List.length_append, hB1len, hB2len,
          hDb, length_vecNeg, hSc]),
      feasible_append _ _ _ _ _ (by rw [hB1len, hDb]),
      and_assoc,
      domain_block_iff _ _ S.nx S.nu x u x2 hDA hx hu,
      dyn_blocks_iff _ _ _ x u x2 S.nx S.nu hSA hSAr hSB hSBr hSc hx hu hx2]


/-- Witness for C5: row count of the stacked polyhedron on a concrete
one-mode system (`1` domain row `+ 2·nx` with `nx = 1`). -/
theorem graph_representation_spec_witness :
    ((get_graph_representation ⟨1, 1, 1, [⟨[[1, 0]], [1]⟩],
        [⟨[[2]], [[3]], [5]⟩]⟩).getD 0 default).A.length =
      (([⟨[[1, 0]], [1]⟩] : List Polyhedron).getD 0 default).A.length
        + 2 * 1 :=
  (graph_representation_spec
    ⟨1, 1, 1, [⟨[[1, 0]], [1]⟩], [⟨[[2]], [[3]], [5]⟩]⟩ 0
    (by decide) (by decide) (by decide) (by decide) (by decide)
    (by decide) (by decide) (by decide)).2.1

theorem isclose_zero_le {y : ℚ} (h : isclose y 0 = true) : |y| ≤ atol := by
  simp only [isclose, decide_eq_true_eq] at h
  simpa using h

theorem isclose_one_ge {y : ℚ} (h : isclose y 1 = true) :
    1 - (atol + rtol) ≤ y := by
  simp only [isclose, decide_eq_true_eq] at h
  have h2 : |y - 1| ≤ atol + rtol := by simpa using h
  have := (abs_le.mp h2).1
  linarith

theorem not_isclose_zero_one {y : ℚ} (h0 : isclose y 0 = true)
    (h1 : isclose y 1 = true) : False := by
  have a := isclose_zero_le h0
  have b := isclose_one_ge h1
  have h2 : y ≤ atol := (abs_le.mp a).2
  rw [atol, rtol] at *
  linarith

theorem listMax_mem (l : List ℚ) (h : l ≠ []) : listMax l ∈ l := by
  cases l with
  | nil => exact absurd rfl h
  | cons x xs =>
    show xs.foldl max x ∈ x :: xs
    rcases foldl_max_mem xs x with h1 | h1
    · rw [h1]; exact List.mem_cons_self _ _
    · exact List.mem_cons_of_mem _ h1

theorem le_listMax (l : List ℚ) (y : ℚ) (hy : y ∈ l) : y ≤ listMax l := by
  cases l with
  | nil => cases hy
  | cons x xs =>
    show y ≤ xs.foldl max x
    rcases List.mem_cons.mp hy with h | h
    · subst h; exact le_foldl_max xs y
    · exact mem_le_foldl_max xs x y h

theorem allclose_pattern : ∀ (m : ℕ) (s : List ℚ),
    allclose s (List.replicate m 0 ++ [1]) = true →
    ∃ s1 b, s = s1 ++ [b] ∧ s1.length = m ∧
      (∀ y ∈ s1, isclose y 0 = true) ∧ isclose b 1 = true := by
  intro m
  induction m with
  | zero =>
    intro s h
    cases s with
    | nil => simp [allclose] at h
    | cons a tail =>
      cases tail with
      | nil =>
        refine ⟨[], a, rfl, rfl, by simp, ?_⟩
        have h2 : (isclose a 1 && allclose [] []) = true := h
        simpa [allclose] using h2
      | cons a2 tail2 =>
        have h2 : (isclose a 1 && allclose (a2 :: tail2) []) = true := h
        simp [allclose] at h2
  | succ m ih =>
    intro s h
    rw [List.replicate_succ, List.cons_append] at h
    cases s with
    | nil => simp [allclose] at h
    | cons a tail =>
      have h2 : (isclose a 0 &&
          allclose tail (List.replicate m 0 ++ [1])) = true := h
      rw [Bool.and_eq_true] at h2
      rcases ih tail h2.2 with ⟨s1, b, hs, hlen, hall, hb⟩
      refine ⟨a :: s1, b, by rw [hs, List.cons_append], by simp [hlen],
        ?_, hb⟩
      intro y hy
      rcases List.mem_cons.mp hy with hh | hh
      · rw [hh]; exact h2.1
      · exact hall y hh

theorem countP_eq_one_unique {α : Type _} (p : α → Bool) (dflt : α) :
    ∀ (l : List α), l.countP p = 1 →
      ∃ i, i < l.length ∧ p (l.getD i dflt) = true ∧
        ∀ j, j < l.length → p (l.getD j dflt) = true → j = i := by
  intro l
  induction l with
  | nil => intro h; simp at h
  | cons a l2 ih =>
    intro h
    rw [List.countP_cons] at h
    by_cases hpa : p a = true
    · have hnone : ∀ y ∈ l2, p y = false := by
        simp [hpa] at h
        exact h
      refine ⟨0, by simp, by simpa using hpa, ?_⟩
      intro j hj hp
      cases j with
      | zero => rfl
      | succ j2 =>
        exfalso
        have hj2 : j2 < l2.length := by simpa using hj
        have hf := hnone _ (getD_mem_of_lt l2 dflt j2 hj2)
        rw [List.getD_cons_succ] at hp
        rw [hf] at hp
        exact Bool.false_ne_true hp
    · have hpa2 : p a = false := by
        cases hh : p a
        · rfl
        · exact absurd hh hpa
      have hc1 : l2.countP p = 1 := by
        simp [hpa2] at h
        omega
      rcases ih hc1 with ⟨i, hi, hpi, huniq⟩
      refine ⟨i + 1, by simpa using hi, by simpa using hpi, ?_⟩
      intro j hj hp
      cases j with
      | zero =>
        exfalso
        rw [List.getD_cons_zero] at hp
        exact hpa hp
      | succ j2 =>
        have := huniq j2 (by simpa using hj) (by simpa using hp)
        omega


/-- Any indicator row whose ascending sort is `allclose` to
`[0,…,0,1]` has a unique entry close to `1`, and Python's
`dt.index(max(dt))` finds exactly that index. -/
theorem integer_row_spec (dt : List ℚ)
    (hall : allclose (List.insertionSort (· ≤ ·) dt)
      (List.replicate (dt.length - 1) 0 ++ [1]) = true) :
    ∃ i, i < dt.length ∧ isclose (dt.getD i 0) 1 = true ∧
      (∀ j, j < dt.length → isclose (dt.getD j 0) 1 = true → j = i) ∧
      listIndex dt (listMax dt) = i := by
  rcases allclose_pattern (dt.length - 1) (List.insertionSort (· ≤ ·) dt)
    hall with ⟨s1, b, hs, hlen, hsmall, hb⟩
  have hperm2 : List.Perm dt (s1 ++ [b]) := by
    have hp := List.perm_insertionSort (· ≤ ·) dt
    rw [hs] at hp
    exact hp.symm
  have hlen_dt : dt.length = s1.length + 1 := by
    rw [hperm2.length_eq]
    simp
  have hbmem : b ∈ dt := hperm2.mem_iff.mpr (by simp)
  have hcount : dt.countP (fun y => isclose y 1) = 1 := by
    rw [hperm2.countP_eq, List.countP_append]
    have h1 : s1.countP (fun y => isclose y 1) = 0 :=
      List.countP_eq_zero.mpr
        (fun y hy hc => not_isclose_zero_one (hsmall y hy) hc)
    have h2 : List.countP (fun y => isclose y 1) [b] = 1 := by
      simp [List.countP_cons, hb]
    rw [h1, h2]
  rcases countP_eq_one_unique (fun y => isclose y 1) 0 dt hcount with
    ⟨i0, hi0, hp0, huniq⟩
  have hne : dt ≠ [] := by
    intro hh
    rw [hh] at hlen_dt
    simp at hlen_dt
  have hmaxmem : listMax dt ∈ dt := listMax_mem dt hne
  have hmax_ge_b : b ≤ listMax dt := le_listMax dt b hbmem
  have hmax_close : isclose (listMax dt) 1 = true := by
    rcases List.mem_append.mp (hperm2.mem_iff.mp hmaxmem) with h | h
    · exfalso
      have hsm := isclose_zero_le (hsmall _ h)
      have hge := isclose_one_ge hb
      have h1 : listMax dt ≤ atol := (abs_le.mp hsm).2
      rw [atol, rtol] at *
      linarith
    · rw [List.mem_singleton] at h
      rw [h]
      exact hb
  have hfid_lt : dt.findIdx (fun x => x == listMax dt) < dt.length :=
    List.findIdx_lt_length_of_exists ⟨listMax dt, hmaxmem, by simp⟩
  have hfid_val : dt.getD (dt.findIdx (fun x => x == listMax dt)) 0 =
      listMax dt := by
    refine getD_eq_of_getElem 0 hfid_lt ?_
    have := @List.findIdx_getElem ℚ (fun x => x == listMax dt) dt hfid_lt
    exact beq_iff_eq.mp this
  have hfid_close : isclose
      (dt.getD (dt.findIdx (fun x => x == listMax dt)) 0) 1 = true := by
    rw [hfid_val]
    exact hmax_close
  exact ⟨i0, hi0, hp0, huniq, huniq _ hfid_lt hfid_close⟩

/-- C6: on a feasible solve, `integer_feasible` is true iff every
stage's indicator row, sorted ascending, is `np.allclose` to
`[0,…,0,1]`; and when it is true, the `mode_sequence` entry of every
stage (Python's `dt.index(max(dt))`) equals the unique index at which
the indicator is within tolerance of `1`. -/
theorem integer_feasible_spec (d : List (List ℚ)) :
    (integer_feasible d = true ↔ ∀ dt ∈ d,
      allclose (List.insertionSort (· ≤ ·) dt)
        (List.replicate (dt.length - 1) 0 ++ [1]) = true) ∧
    (integer_feasible d = true → ∀ t, t < d.length →
      ∃ i, i < (d.getD t []).length ∧
        isclose ((d.getD t []).getD i 0) 1 = true ∧
        (∀ j, j < (d.getD t []).length →
          isclose ((d.getD t []).getD j 0) 1 = true → j = i) ∧
        (mode_sequence_of d).getD t 0 = i) := by
  have hiff : integer_feasible d = true ↔ ∀ dt ∈ d,
      allclose (List.insertionSort (· ≤ ·) dt)
        (List.replicate (dt.length - 1) 0 ++ [1]) = true := by
    rw [integer_feasible, List.all_eq_true]
  refine ⟨hiff, ?_⟩
  intro hint t ht
  have hdt : d.getD t [] ∈ d := getD_mem_of_lt d [] t ht
  rcases integer_row_spec (d.getD t []) (hiff.mp hint _ hdt) with
    ⟨i, hi, hclose, huniq, hidx⟩
  refine ⟨i, hi, hclose, huniq, ?_⟩
  rw [mode_sequence_of, getD_map_list _ _ _ _ [] ht]
  exact hidx


/-- Witness for C6 on the integral indicator matrix `[[0, 1]]`. -/
theorem integer_feasible_spec_witness :
    integer_feasible [[0, 1]] = true ∧
    (∃ i, i < (([[0, 1]] : List (List ℚ)).getD 0 []).length ∧
      isclose ((([[0, 1]] : List (List ℚ)).getD 0 []).getD i 0) 1 = true ∧
      (∀ j, j < (([[0, 1]] : List (List ℚ)).getD 0 []).length →
        isclose ((([[0, 1]] : List (List ℚ)).getD 0 []).getD j 0) 1 =
          true → j = i) ∧
      (mode_sequence_of [[0, 1]]).getD 0 0 = i) := by
  have hint : integer_feasible [[(0:ℚ), 1]] = true := by
    norm_num [integer_feasible, allclose, isclose, atol, rtol,
      List.insertionSort, List.orderedInsert]
  exact ⟨hint, (integer_feasible_spec [[0, 1]]).2 hint 0 (by decide)⟩


end PyMPC
